import Mathlib

/-!
Verification of the core of `anno_goats` (`src/anno_goats/assets.py`):
a GUID index over an XML asset catalog, the forward reward-pool tree
builder with probability bookkeeping, the inverse containing-pools tree
builder, cached derived sequences, and tree iteration.

Shallow embedding conventions:
  * An XML asset is modelled by the fields the code actually reads:
    its GUID / Name / English text (each optional), whether it has a
    `Values/Item` sub-tree, and — when it has a `Values/RewardPool`
    sub-tree — the ordered list of `Item` descendants of that sub-tree,
    each tagged with whether it sits directly under
    `Values/RewardPool/ItemsPool` (the forward builder's xpath
    `Values/RewardPool//Item` sees all of them; the inverse edge scan's
    xpath `Values/RewardPool/ItemsPool/Item` sees only the tagged ones).
  * Python ints are `Int`; probabilities (Python floats produced by exact
    `weight / pool_weight` divisions) are modelled as exact rationals `ℚ`.
  * A Python dict is an association list with dict semantics: updating an
    existing key keeps its position, a fresh key appends.
  * The unbounded recursion of the two tree builders is modelled with
    explicit fuel; running out of fuel (`BErr.outOfFuel`) stands for the
    recursion still running.  Python exceptions (`ValueError`/`KeyError`
    on a missing GUID, `ZeroDivisionError`) are the other `Except` errors.
-/

/-- One `<Item>` element inside a pool: the code reads `findtext("ItemLink")`
(`none` when the element or its text is absent) and `findtext("Weight")`
(`none` when absent/empty, defaulted to 1 at the points of use). -/
structure Item where
  itemLink : Option Int
  weight : Option Int
deriving DecidableEq

/-- One `<Asset>` element, restricted to what `assets.py` reads.
`rewardPool = some items` means the asset has a `Values/RewardPool`
sub-tree whose `Item` descendants, in document order, are `items`; the
`Bool` tags whether the item is directly under `ItemsPool`. -/
structure Asset where
  guid : Option Int
  name : Option String
  english : Option String
  hasItem : Bool
  rewardPool : Option (List (Bool × Item))
deriving DecidableEq

/-- The GUID index: an association list with Python-dict semantics. -/
abbrev AssetIndex := List (Int × Asset)

/-- Python dict insertion: overwrite in place when the key exists
(keeping its position), append otherwise. -/
def dictInsert (idx : AssetIndex) (g : Int) (a : Asset) : AssetIndex :=
  if idx.any (fun p => p.1 == g) then
    idx.map (fun p => if p.1 == g then (g, a) else p)
  else
    idx ++ [(g, a)]

/-- Dict lookup: the first (hence, keys being unique, the) entry for `g`. -/
def idxLookup (idx : AssetIndex) (g : Int) : Option Asset :=
  (idx.find? (fun p => p.1 == g)).map Prod.snd

/-- One step of the `asset_index` scan: insert an asset that has an
`Item` or `RewardPool` sub-tree and a GUID; skip everything else. -/
def indexStep (idx : AssetIndex) (a : Asset) : AssetIndex :=
  if a.hasItem || a.rewardPool.isSome then
    match a.guid with
    | some g => dictInsert idx g a
    | none => idx
  else idx

/-- `asset_index(doc)`: scan assets with an `Item` or `RewardPool`
sub-tree; insert `guid ↦ node` for those that have a GUID. -/
def asset_index (doc : List Asset) : AssetIndex :=
  doc.foldl indexStep []

/-- `reward_pools`: the index values (in index order) that carry a
`Values/RewardPool` sub-tree.  This is the value the cached generator
materializes on first use. -/
def reward_pools (idx : AssetIndex) : List Asset :=
  (idx.map Prod.snd).filter (fun a => a.rewardPool.isSome)

/-- `Values/RewardPool/ItemsPool/Item`: the pool items directly under
`ItemsPool`, in document order. -/
def itemsPoolItems (a : Asset) : List Item :=
  ((a.rewardPool.getD []).filter (fun p => p.1)).map Prod.snd

/-- `all_reward_items`: for every pool, for every `ItemsPool` item with a
non-empty `ItemLink`, the edge `(pool, item, int(link))`. -/
def all_reward_items (idx : AssetIndex) : List (Asset × Item × Int) :=
  ((reward_pools idx).map
    (fun a => (itemsPoolItems a).filterMap
      (fun it => it.itemLink.map (fun l => (a, it, l))))).flatten

/-- `in_rewards(guid)`: the edges of `all_reward_items` whose link is
`guid`, as `(pool, item)` pairs. -/
def in_rewards (idx : AssetIndex) (guid : Int) : List (Asset × Item) :=
  (all_reward_items idx).filterMap
    (fun t => if t.2.2 = guid then some (t.1, t.2.1) else none)

/-- The `linkweights` list of `_reward_pool_tree`: every `Item` descendant
of `Values/RewardPool` that has an `ItemLink` and does not declare
`Weight` exactly 0, as `(int(link), int(weight or 1))`. -/
def linkweights (asset : Asset) : List (Int × Int) :=
  ((asset.rewardPool.getD []).filter
    (fun p => p.2.itemLink.isSome && !(decide (p.2.weight = some 0)))).map
    (fun p => (p.2.itemLink.getD 0, p.2.weight.getD 1))

/-- The node type built by both tree builders (`RewardPoolItem` in the
source, minus the non-owning parent back-reference, which carries no
data of its own). -/
inductive RewardPoolItem where
  | mk (guid : Int) (name : Option String) (english : Option String)
       (weight : Option Int) (chance_from_parent : Option ℚ)
       (chance_from_root : Option ℚ) (children : List RewardPoolItem)

def RewardPoolItem.guid : RewardPoolItem → Int
  | .mk g _ _ _ _ _ _ => g

def RewardPoolItem.name : RewardPoolItem → Option String
  | .mk _ n _ _ _ _ _ => n

def RewardPoolItem.english : RewardPoolItem → Option String
  | .mk _ _ e _ _ _ _ => e

def RewardPoolItem.weight : RewardPoolItem → Option Int
  | .mk _ _ _ w _ _ _ => w

def RewardPoolItem.chance_from_parent : RewardPoolItem → Option ℚ
  | .mk _ _ _ _ p _ _ => p

def RewardPoolItem.chance_from_root : RewardPoolItem → Option ℚ
  | .mk _ _ _ _ _ r _ => r

def RewardPoolItem.children : RewardPoolItem → List RewardPoolItem
  | .mk _ _ _ _ _ _ cs => cs

/-- The errors a builder call can end in: the typed missing-GUID error
(`ValueError`/`KeyError` in the source), Python's `ZeroDivisionError`,
and fuel exhaustion, which models the recursion still running. -/
inductive BErr where
  | notFound (guid : Int)
  | outOfFuel
  | divByZero
deriving DecidableEq

/-- Effectful map over a list in the `Except` monad, stopping at the
first error — the semantics of a Python list comprehension in which
each element's construction may raise. -/
def mapME {ε α β : Type} (f : α → Except ε β) : List α → Except ε (List β)
  | [] => Except.ok []
  | x :: xs =>
    match f x with
    | Except.error e => Except.error e
    | Except.ok y =>
      match mapME f xs with
      | Except.error e => Except.error e
      | Except.ok ys => Except.ok (y :: ys)

/-- `_reward_pool_tree(guid, weight=?, chance_from_parent=?,
chance_from_root=cfr)`: look the GUID up (missing ⇒ `notFound`), collect
`linkweights`, and recurse over them; when the collected weights sum to
zero with edges present, the comprehension's first `weight / pool_weight`
raises `ZeroDivisionError` before any recursion. -/
def reward_pool_tree (idx : AssetIndex) :
    Nat → Int → Option Int → Option ℚ → ℚ → Except BErr RewardPoolItem
  | 0, _, _, _, _ => Except.error BErr.outOfFuel
  | fuel+1, guid, weight, cfp, cfr =>
    match idxLookup idx guid with
    | none => Except.error (BErr.notFound guid)
    | some asset =>
      let lw := linkweights asset
      let pw : Int := (lw.map Prod.snd).sum
      if pw = 0 ∧ lw ≠ [] then Except.error BErr.divByZero
      else
        (mapME
          (fun p =>
            reward_pool_tree idx fuel p.1 (some p.2)
              (some ((p.2 : ℚ) / (pw : ℚ)))
              (cfr * (p.2 : ℚ) / (pw : ℚ)))
          lw).map
          (fun children =>
            RewardPoolItem.mk guid asset.name asset.english
              weight cfp (some cfr) children)

/-- `reward_tree(guid)`: the forward builder entered with
`chance_from_root = 1` and no weight / chance-from-parent. -/
def reward_tree (idx : AssetIndex) (fuel : Nat) (guid : Int) :
    Except BErr RewardPoolItem :=
  reward_pool_tree idx fuel guid none none 1

/-- `_in_rewards_tree(guid, weight=?)`: look the GUID up (missing ⇒
`KeyError`, the typed missing-GUID failure), then recurse over
`in_rewards(guid)`, each child keyed by the containing pool's own GUID
(`asset_guid`; total on indexed assets, where it returns the index key)
with the item's declared weight or 1.  No chance fields are set. -/
def in_rewards_tree_aux (idx : AssetIndex) :
    Nat → Int → Option Int → Except BErr RewardPoolItem
  | 0, _, _ => Except.error BErr.outOfFuel
  | fuel+1, guid, weight =>
    match idxLookup idx guid with
    | none => Except.error (BErr.notFound guid)
    | some asset =>
      (mapME
        (fun p =>
          in_rewards_tree_aux idx fuel (p.1.guid.getD 0)
            (some (p.2.weight.getD 1)))
        (in_rewards idx guid)).map
        (fun children =>
          RewardPoolItem.mk guid asset.name asset.english
            weight none none children)

/-- `in_rewards_tree(guid)`: the inverse builder entered with no weight. -/
def in_rewards_tree (idx : AssetIndex) (fuel : Nat) (guid : Int) :
    Except BErr RewardPoolItem :=
  in_rewards_tree_aux idx fuel guid none

mutual

/-- `iter_all`: yield self, then every child's `iter_all`, left to right
(pre-order).  `iter_all_list` is the concatenation over a child list. -/
def iter_all : RewardPoolItem → List RewardPoolItem
  | .mk g n e w p r cs => .mk g n e w p r cs :: iter_all_list cs

def iter_all_list : List RewardPoolItem → List RewardPoolItem
  | [] => []
  | c :: cs => iter_all c ++ iter_all_list cs

end

mutual

/-- `iter_leafs`: with children, the concatenation of the children's
leaves; without, the node itself. -/
def iter_leafs : RewardPoolItem → List RewardPoolItem
  | .mk g n e w p r cs =>
    if cs.isEmpty then [.mk g n e w p r cs] else iter_leafs_list cs

def iter_leafs_list : List RewardPoolItem → List RewardPoolItem
  | [] => []
  | c :: cs => iter_leafs c ++ iter_leafs_list cs

end

/-- The `pool_weight` of a node as recoverable from a built tree: the sum
of its children's declared weights (the collected edge weights). -/
def childrenWeightSum (cs : List RewardPoolItem) : Int :=
  (cs.map (fun c => c.weight.getD 0)).sum

/-- Sum of `chance_from_root` over a node's direct children. -/
def sumChildrenCfr (t : RewardPoolItem) : ℚ :=
  (t.children.map (fun c => c.chance_from_root.getD 0)).sum

/-- The per-child probability bookkeeping of the forward builder: the
child has a weight, `chance_from_parent = weight / (sum of the sibling
weights)` (the sum taken over all children of the parent, the child
itself included), and `chance_from_root = chance_from_parent ×
parent.chance_from_root`. -/
def childFieldsOk (pr : Option ℚ) (pw : Int) (c : RewardPoolItem) : Bool :=
  match pr with
  | none => false
  | some r =>
    c.weight.isSome
    && decide (c.chance_from_parent = some ((c.weight.getD 0 : ℚ) / (pw : ℚ)))
    && decide (c.chance_from_root
        = some (((c.weight.getD 0 : ℚ) / (pw : ℚ)) * r))

mutual

/-- The probability invariant of a forward-built tree, checked at every
node: each child satisfies `childFieldsOk` against the parent's
`chance_from_root` and the sum of the children's weights, recursively. -/
def chanceOk : RewardPoolItem → Bool
  | .mk _ _ _ _ _ r cs =>
    cs.all (childFieldsOk r (childrenWeightSum cs)) && chanceOkList cs

def chanceOkList : List RewardPoolItem → Bool
  | [] => true
  | c :: cs => chanceOk c && chanceOkList cs

end

/-- The memo slots written by the `cached_generator` decorator on
`reward_pools` / `all_reward_items`. -/
structure AssetsCache where
  cached_reward_pools : Option (List Asset)
  cached_all_reward_items : Option (List (Asset × Item × Int))
deriving DecidableEq

def emptyCache : AssetsCache := ⟨none, none⟩

/-- Calling the decorated `reward_pools`: return the memoized list if
present; otherwise materialize the generator into a list, store it, and
return it. -/
def reward_pools_call (idx : AssetIndex) (s : AssetsCache) :
    List Asset × AssetsCache :=
  match s.cached_reward_pools with
  | some v => (v, s)
  | none =>
    let v := reward_pools idx
    (v, { s with cached_reward_pools := some v })

/-- The edge scan of `all_reward_items` over a given pools list. -/
def all_reward_items_scan (pools : List Asset) : List (Asset × Item × Int) :=
  (pools.map
    (fun a => (itemsPoolItems a).filterMap
      (fun it => it.itemLink.map (fun l => (a, it, l))))).flatten

/-- Calling the decorated `all_reward_items`: return the memoized list if
present; otherwise consume `reward_pools()` (itself through its cache),
materialize the scan, store it, and return it. -/
def all_reward_items_call (idx : AssetIndex) (s : AssetsCache) :
    List (Asset × Item × Int) × AssetsCache :=
  match s.cached_all_reward_items with
  | some v => (v, s)
  | none =>
    let ps := reward_pools_call idx s
    let v := all_reward_items_scan ps.1
    (v, { ps.2 with cached_all_reward_items := some v })

/-! Basic lemmas about the embedding. -/

@[simp]
theorem RewardPoolItem.guid_mk (g n e w p r cs) :
    (RewardPoolItem.mk g n e w p r cs).guid = g := rfl

@[simp]
theorem RewardPoolItem.name_mk (g n e w p r cs) :
    (RewardPoolItem.mk g n e w p r cs).name = n := rfl

@[simp]
theorem RewardPoolItem.english_mk (g n e w p r cs) :
    (RewardPoolItem.mk g n e w p r cs).english = e := rfl

@[simp]
theorem RewardPoolItem.weight_mk (g n e w p r cs) :
    (RewardPoolItem.mk g n e w p r cs).weight = w := rfl

@[simp]
theorem RewardPoolItem.cfp_mk (g n e w p r cs) :
    (RewardPoolItem.mk g n e w p r cs).chance_from_parent = p := rfl

@[simp]
theorem RewardPoolItem.cfr_mk (g n e w p r cs) :
    (RewardPoolItem.mk g n e w p r cs).chance_from_root = r := rfl

@[simp]
theorem RewardPoolItem.children_mk (g n e w p r cs) :
    (RewardPoolItem.mk g n e w p r cs).children = cs := rfl

@[simp]
theorem mapME_nil {ε α β : Type} (f : α → Except ε β) :
    mapME f [] = Except.ok [] := rfl

theorem mapME_cons {ε α β : Type} (f : α → Except ε β) (x : α) (xs : List α) :
    mapME f (x :: xs)
      = match f x with
        | Except.error e => Except.error e
        | Except.ok y =>
          match mapME f xs with
          | Except.error e => Except.error e
          | Except.ok ys => Except.ok (y :: ys) := rfl

/-- A successful `mapME` is a pointwise success. -/
theorem mapME_ok_forall₂ {ε α β : Type} {f : α → Except ε β}
    {xs : List α} {ys : List β} (h : mapME f xs = Except.ok ys) :
    List.Forall₂ (fun x y => f x = Except.ok y) xs ys := by
  induction xs generalizing ys with
  | nil =>
    simp only [mapME_nil, Except.ok.injEq] at h
    subst h
    exact List.Forall₂.nil
  | cons x xs ih =>
    rw [mapME_cons] at h
    cases hx : f x with
    | error e => rw [hx] at h; exact absurd h (by simp)
    | ok y =>
      rw [hx] at h
      cases hxs : mapME f xs with
      | error e => rw [hxs] at h; exact absurd h (by simp)
      | ok ys' =>
        rw [hxs] at h
        simp only [Except.ok.injEq] at h
        subst h
        exact List.Forall₂.cons hx (ih hxs)

/-- `mapME` cannot produce an error none of the elements produces. -/
theorem mapME_ne_error {ε α β : Type} {f : α → Except ε β} {e : ε}
    {xs : List α} (h : ∀ x ∈ xs, f x ≠ Except.error e) :
    mapME f xs ≠ Except.error e := by
  induction xs with
  | nil => simp
  | cons x xs ih =>
    rw [mapME_cons]
    cases hx : f x with
    | error e' =>
      intro hc
      simp only [Except.error.injEq] at hc
      exact h x (by simp) (by rw [hx, hc])
    | ok y =>
      cases hxs : mapME f xs with
      | error e' =>
        intro hc
        simp only [Except.error.injEq] at hc
        exact ih (fun z hz => h z (by simp [hz])) (by rw [hxs, hc])
      | ok ys => simp

/-- Pointwise-determined projections: if each `y` is determined from its
`x` under `Forall₂`, the maps agree. -/
theorem forall₂_map_eq {α β γ : Type} {R : α → β → Prop}
    {xs : List α} {ys : List β}
    (h : List.Forall₂ R xs ys) (proj : β → γ) (f : α → γ)
    (hd : ∀ x y, R x y → proj y = f x) :
    ys.map proj = xs.map f := by
  induction h with
  | nil => rfl
  | cons hxy _ ih => simp [hd _ _ hxy, ih]

theorem chanceOkList_eq_true {cs : List RewardPoolItem} :
    chanceOkList cs = true ↔ ∀ c ∈ cs, chanceOk c = true := by
  induction cs with
  | nil => simp [chanceOkList]
  | cons c cs ih => simp [chanceOkList, Bool.and_eq_true, ih]

theorem intCast_list_sum (l : List Int) :
    ((l.sum : Int) : ℚ) = (l.map (fun n => (n : ℚ))).sum := by
  induction l with
  | nil => simp
  | cons x xs ih => simp [ih]

/-- `Forall₂` membership extraction, right to left. -/
theorem forall₂_mem_right {α β : Type} {R : α → β → Prop}
    {xs : List α} {ys : List β} (h : List.Forall₂ R xs ys)
    {y : β} (hy : y ∈ ys) : ∃ x ∈ xs, R x y := by
  induction h with
  | nil => cases hy
  | cons hxy htl ih =>
    rcases List.mem_cons.1 hy with rfl | hy'
    · exact ⟨_, by simp, hxy⟩
    · obtain ⟨x, hx, hr⟩ := ih hy'
      exact ⟨x, by simp [hx], hr⟩

/-- Core invariant of the forward builder: a successful
`_reward_pool_tree` call returns a node carrying exactly the passed
`weight` / `chance_from_parent` / `chance_from_root`, and the whole
subtree satisfies the probability bookkeeping `chanceOk`. -/
theorem reward_pool_tree_ok_fields {idx : AssetIndex} :
    ∀ (fuel : Nat) (g : Int) (w : Option Int) (cfp : Option ℚ) (r : ℚ)
      (t : RewardPoolItem),
      reward_pool_tree idx fuel g w cfp r = Except.ok t →
      t.guid = g ∧ t.weight = w ∧ t.chance_from_parent = cfp ∧
        t.chance_from_root = some r ∧ chanceOk t = true := by
  intro fuel
  induction fuel with
  | zero => intro g w cfp r t h; exact absurd h (by simp [reward_pool_tree])
  | succ fuel ih =>
    intro g w cfp r t h
    rw [reward_pool_tree] at h
    cases hl : idxLookup idx g with
    | none => rw [hl] at h; exact absurd h (by simp)
    | some asset =>
      rw [hl] at h
      simp only at h
      split at h
      · exact absurd h (by simp)
      · cases hm : mapME
            (fun p =>
              reward_pool_tree idx fuel p.1 (some p.2)
                (some ((p.2 : ℚ) / (((linkweights asset).map Prod.snd).sum : ℚ)))
                (r * (p.2 : ℚ) / (((linkweights asset).map Prod.snd).sum : ℚ)))
            (linkweights asset) with
        | error e => rw [hm] at h; exact absurd h (by simp [Except.map])
        | ok children =>
          rw [hm] at h
          simp only [Except.map, Except.ok.injEq] at h
          subst h
          refine ⟨rfl, rfl, rfl, rfl, ?_⟩
          have hf := mapME_ok_forall₂ hm
          have hwts : children.map (fun c => c.weight.getD 0)
              = (linkweights asset).map Prod.snd := by
            refine forall₂_map_eq hf _ _ ?_
            intro p c hpc
            have := (ih p.1 (some p.2) _ _ c hpc).2.1
            simp [this]
          have hpw : childrenWeightSum children
              = ((linkweights asset).map Prod.snd).sum := by
            rw [childrenWeightSum, hwts]
          rw [chanceOk, Bool.and_eq_true]
          constructor
          · rw [List.all_eq_true]
            intro c hc
            obtain ⟨p, _, hpc⟩ := forall₂_mem_right hf hc
            obtain ⟨_, hw, hcfp, hcfr, _⟩ := ih p.1 (some p.2) _ _ c hpc
            rw [childFieldsOk]
            simp only [RewardPoolItem.children_mk] at hpw
            rw [hpw, hw, hcfp, hcfr]
            simp only [Option.isSome_some, Option.getD_some, Bool.true_and,
              Bool.and_eq_true, decide_eq_true_eq, true_and, Option.some.injEq]
            ring
          · rw [chanceOkList_eq_true]
            intro c hc
            obtain ⟨p, _, hpc⟩ := forall₂_mem_right hf hc
            exact (ih p.1 (some p.2) _ _ c hpc).2.2.2.2

/-- C1: for every non-root node in a tree returned by `reward_tree`
(BuildRewardTree), `chance_from_parent` equals the node's weight divided
by the sum of its siblings' weights (the weights of all children of its
parent, itself included — the `pool_weight` the code divides by), and
`chance_from_root` equals `chance_from_parent` times the parent's
`chance_from_root`; the root's `chance_from_root` is 1.  `chanceOk`
states exactly this bookkeeping at every node of the tree. -/
theorem claim_C1_reward_tree_chance_invariant (idx : AssetIndex)
    (fuel : Nat) (g : Int) (t : RewardPoolItem)
    (h : reward_tree idx fuel g = Except.ok t) :
    t.chance_from_root = some 1 ∧ chanceOk t = true := by
  obtain ⟨-, -, -, hr, hok⟩ := reward_pool_tree_ok_fields fuel g none none 1 t h
  exact ⟨hr, hok⟩

/-- The concrete catalog of the spec's §8 scenario: pool 100 holding
item-links `(10, weight 3)` and `(20, weight 1)`, plus plain items 10
and 20. -/
def wDoc : List Asset :=
  [ ⟨some 100, some "P", none, false,
      some [(true, ⟨some 10, some 3⟩), (true, ⟨some 20, some 1⟩)]⟩
  , ⟨some 10, some "A", none, true, none⟩
  , ⟨some 20, some "B", none, true, none⟩ ]

def wIdx : AssetIndex := asset_index wDoc

/-- The tree `reward_tree` builds for pool 100 of `wDoc`: chances 3/4
and 1/4, as in the spec's concrete scenario. -/
def wTree100 : RewardPoolItem :=
  .mk 100 (some "P") none none none (some 1)
    [ .mk 10 (some "A") none (some 3) (some (3/4 : ℚ)) (some (3/4 : ℚ)) []
    , .mk 20 (some "B") none (some 1) (some (1/4 : ℚ)) (some (1/4 : ℚ)) [] ]

theorem reward_tree_wIdx_eq : reward_tree wIdx 2 100 = Except.ok wTree100 := by
  norm_num [reward_tree, reward_pool_tree, idxLookup, wIdx, wDoc, asset_index,
    indexStep, dictInsert, linkweights, mapME_cons, mapME_nil, Except.map, wTree100]

theorem claim_C1_witness :
    reward_tree wIdx 2 100 = Except.ok wTree100 ∧
      (wTree100.chance_from_root = some 1 ∧ chanceOk wTree100 = true) :=
  ⟨reward_tree_wIdx_eq,
    claim_C1_reward_tree_chance_invariant wIdx 2 100 wTree100 reward_tree_wIdx_eq⟩

/-- C2: with any fuel left, a GUID absent from the index makes both
builders fail with the typed `notFound` error naming that GUID; a
present GUID whose asset is not a reward pool gives a single leaf from
the forward builder, and a present GUID linked by no pool gives a
single leaf from the inverse builder. -/
theorem claim_C2_lookup_failure_and_leafs (idx : AssetIndex) (g : Int)
    (fuel : Nat) :
    (idxLookup idx g = none →
      reward_tree idx (fuel+1) g = Except.error (BErr.notFound g) ∧
      in_rewards_tree idx (fuel+1) g = Except.error (BErr.notFound g)) ∧
    (∀ a, idxLookup idx g = some a → a.rewardPool = none →
      reward_tree idx (fuel+1) g
        = Except.ok (RewardPoolItem.mk g a.name a.english none none (some 1) [])) ∧
    (∀ a, idxLookup idx g = some a → in_rewards idx g = [] →
      in_rewards_tree idx (fuel+1) g
        = Except.ok (RewardPoolItem.mk g a.name a.english none none none [])) := by
  refine ⟨fun hl => ?_, fun a hl hp => ?_, fun a hl he => ?_⟩
  · constructor
    · rw [reward_tree, reward_pool_tree, hl]
    · rw [in_rewards_tree, in_rewards_tree_aux, hl]
  · rw [reward_tree, reward_pool_tree, hl]
    simp [linkweights, hp, Except.map]
  · rw [in_rewards_tree, in_rewards_tree_aux, hl, he]
    simp [Except.map]

theorem claim_C2_witness :
    (reward_tree wIdx 3 999 = Except.error (BErr.notFound 999) ∧
      in_rewards_tree wIdx 3 999 = Except.error (BErr.notFound 999)) ∧
    reward_tree wIdx 3 10
      = Except.ok (RewardPoolItem.mk 10 (some "A") none none none (some 1) []) ∧
    in_rewards_tree wIdx 3 100
      = Except.ok (RewardPoolItem.mk 100 (some "P") none none none none []) :=
  ⟨(claim_C2_lookup_failure_and_leafs wIdx 999 2).1 rfl,
    (claim_C2_lookup_failure_and_leafs wIdx 10 2).2.1
      ⟨some 10, some "A", none, true, none⟩ rfl rfl,
    (claim_C2_lookup_failure_and_leafs wIdx 100 2).2.2
      ⟨some 100, some "P", none, false,
        some [(true, ⟨some 10, some 3⟩), (true, ⟨some 20, some 1⟩)]⟩ rfl rfl⟩

/-- A successful dict lookup comes from an entry of the list. -/
theorem idxLookup_mem {idx : AssetIndex} {g : Int} {a : Asset}
    (h : idxLookup idx g = some a) : (g, a) ∈ idx := by
  rw [idxLookup] at h
  cases hf : idx.find? (fun p => p.1 == g) with
  | none => rw [hf] at h; cases h
  | some p =>
    rw [hf] at h
    simp at h
    have hm := List.mem_of_find?_eq_some hf
    have hp := List.find?_some hf
    simp only [beq_iff_eq] at hp
    obtain ⟨p1, p2⟩ := p
    simp only at hp h
    subst hp h
    exact hm

/-- Every weight collected into `linkweights` is at least 1 when all
declared weights of the asset are nonnegative: an eligible item's weight
is either absent (defaulted to 1) or declared nonzero. -/
theorem linkweights_pos_of_nonneg {a : Asset}
    (ha : ∀ q ∈ a.rewardPool.getD [], 0 ≤ q.2.weight.getD 1) :
    ∀ x ∈ (linkweights a).map Prod.snd, 0 < x := by
  intro x hx
  rw [linkweights] at hx
  simp only [List.map_map, List.mem_map, List.mem_filter,
    Bool.and_eq_true, Bool.not_eq_true', decide_eq_false_iff_not,
    Function.comp] at hx
  obtain ⟨q, ⟨hq, -, hw0⟩, hqx⟩ := hx
  have hnn := ha q hq
  cases hwv : q.2.weight with
  | none => simp only [hwv, Option.getD_none] at hqx; omega
  | some v =>
    rw [hwv] at hqx hnn
    simp only [Option.getD_some] at hqx hnn
    have : v ≠ 0 := fun hv => hw0 (by rw [hwv, hv])
    omega

/-- C4 (amended): an indexed asset with no eligible item-link edges
yields a node with zero children; and when every weight declared in the
document is nonnegative, no `reward_pool_tree` call raises
`ZeroDivisionError`.  (As literally stated — "no division by zero occurs
in any BuildRewardTree call" — the claim fails: eligible negative
weights can make `pool_weight` zero with edges present, see
`claim_C4_counterexample`.) -/
theorem claim_C4_empty_pool_and_nonneg_no_div (idx : AssetIndex) :
    (∀ (g : Int) (a : Asset) (fuel : Nat) (w : Option Int) (cfp : Option ℚ)
        (r : ℚ),
      idxLookup idx g = some a → linkweights a = [] →
      reward_pool_tree idx (fuel+1) g w cfp r
        = Except.ok (RewardPoolItem.mk g a.name a.english w cfp (some r) [])) ∧
    ((∀ p ∈ idx, ∀ q ∈ p.2.rewardPool.getD [], 0 ≤ q.2.weight.getD 1) →
      ∀ (fuel : Nat) (g : Int) (w : Option Int) (cfp : Option ℚ) (r : ℚ),
      reward_pool_tree idx fuel g w cfp r ≠ Except.error BErr.divByZero) := by
  constructor
  · intro g a fuel w cfp r hl hlw
    rw [reward_pool_tree, hl]
    simp [hlw, Except.map]
  · intro hnn fuel
    induction fuel with
    | zero => intro g w cfp r; simp [reward_pool_tree]
    | succ fuel ih =>
      intro g w cfp r
      rw [reward_pool_tree]
      cases hl : idxLookup idx g with
      | none => simp
      | some a =>
        simp only
        split
        · rename_i hcond
          obtain ⟨hz, hne⟩ := hcond
          have hpos := linkweights_pos_of_nonneg (a := a)
            (hnn (g, a) (idxLookup_mem hl))
          have : 0 < ((linkweights a).map Prod.snd).sum :=
            List.sum_pos _ hpos (by
              intro hmap
              exact hne (by simpa using List.map_eq_nil_iff.1 hmap))
          omega
        · cases hm : mapME
              (fun p =>
                reward_pool_tree idx fuel p.1 (some p.2)
                  (some ((p.2 : ℚ) / (((linkweights a).map Prod.snd).sum : ℚ)))
                  (r * (p.2 : ℚ) / (((linkweights a).map Prod.snd).sum : ℚ)))
              (linkweights a) with
          | error e =>
            intro hc
            simp only [Except.map, Except.error.injEq] at hc
            subst hc
            exact mapME_ne_error (fun p _ => ih p.1 (some p.2) _ _) hm
          | ok children => simp [Except.map]

/-- A catalog on which BuildRewardTree does divide by zero: pool 1
declares item-links of weights −1 and 1 — both eligible (neither is
declared weight 0), summing to `pool_weight = 0`. -/
def cDoc4 : List Asset :=
  [ ⟨some 1, none, none, false,
      some [(true, ⟨some 2, some (-1)⟩), (true, ⟨some 3, some 1⟩)]⟩ ]

def cIdx4 : AssetIndex := asset_index cDoc4

/-- Counterexample to C4 as stated: this `reward_tree` call hits
division by zero (Python raises `ZeroDivisionError`). -/
theorem claim_C4_counterexample :
    reward_tree cIdx4 2 1 = Except.error BErr.divByZero := by
  norm_num [reward_tree, reward_pool_tree, idxLookup, cIdx4, cDoc4, asset_index,
    indexStep, dictInsert, linkweights, mapME_cons, mapME_nil, Except.map]
  exact fun h => absurd h (by simp)

theorem claim_C4_witness :
    reward_pool_tree wIdx 3 10 none none 1
        = Except.ok (RewardPoolItem.mk 10 (some "A") none none none (some 1) []) ∧
    reward_pool_tree wIdx 2 100 none none 1 ≠ Except.error BErr.divByZero :=
  ⟨(claim_C4_empty_pool_and_nonneg_no_div wIdx).1 10
      ⟨some 10, some "A", none, true, none⟩ 2 none none 1 rfl rfl,
    (claim_C4_empty_pool_and_nonneg_no_div wIdx).2 (by decide) 2 100 none none 1⟩

mutual

/-- No node of the tree carries `chance_from_parent` or
`chance_from_root`. -/
def noChanceFields : RewardPoolItem → Bool
  | .mk _ _ _ _ p r cs =>
    decide (p = none) && decide (r = none) && noChanceFieldsList cs

def noChanceFieldsList : List RewardPoolItem → Bool
  | [] => true
  | c :: cs => noChanceFields c && noChanceFieldsList cs

end

theorem noChanceFieldsList_eq_true {cs : List RewardPoolItem} :
    noChanceFieldsList cs = true ↔ ∀ c ∈ cs, noChanceFields c = true := by
  induction cs with
  | nil => simp [noChanceFieldsList]
  | cons c cs ih => simp [noChanceFieldsList, Bool.and_eq_true, ih]

/-- Core shape of the inverse builder's output: the node carries the
passed guid and weight, one child per matching `in_rewards` edge — the
child's guid read from the containing pool asset and its weight from the
item (defaulted to 1) — and no chance field anywhere in the tree. -/
theorem in_rewards_tree_aux_ok_fields {idx : AssetIndex} :
    ∀ (fuel : Nat) (g : Int) (w : Option Int) (t : RewardPoolItem),
      in_rewards_tree_aux idx fuel g w = Except.ok t →
      t.guid = g ∧ t.weight = w ∧
        t.children.map (fun c => (c.guid, c.weight))
          = (in_rewards idx g).map
              (fun p => (p.1.guid.getD 0, some (p.2.weight.getD 1))) ∧
        noChanceFields t = true := by
  intro fuel
  induction fuel with
  | zero => intro g w t h; exact absurd h (by simp [in_rewards_tree_aux])
  | succ fuel ih =>
    intro g w t h
    rw [in_rewards_tree_aux] at h
    cases hl : idxLookup idx g with
    | none => rw [hl] at h; exact absurd h (by simp)
    | some asset =>
      rw [hl] at h
      cases hm : mapME
          (fun p =>
            in_rewards_tree_aux idx fuel (p.1.guid.getD 0)
              (some (p.2.weight.getD 1)))
          (in_rewards idx g) with
      | error e => rw [hm] at h; exact absurd h (by simp [Except.map])
      | ok children =>
        rw [hm] at h
        simp only [Except.map, Except.ok.injEq] at h
        subst h
        have hf := mapME_ok_forall₂ hm
        refine ⟨rfl, rfl, ?_, ?_⟩
        · simp only [RewardPoolItem.children_mk]
          refine forall₂_map_eq hf _ _ ?_
          intro p c hpc
          obtain ⟨hg, hw, -, -⟩ := ih (p.1.guid.getD 0) (some (p.2.weight.getD 1)) c hpc
          rw [hg, hw]
        · rw [noChanceFields]
          have hlist : noChanceFieldsList children = true := by
            rw [noChanceFieldsList_eq_true]
            intro c hc
            obtain ⟨p, -, hpc⟩ := forall₂_mem_right hf hc
            exact (ih (p.1.guid.getD 0) (some (p.2.weight.getD 1)) c hpc).2.2.2
          simp [hlist]

/-- C5: a tree returned by `in_rewards_tree` (BuildContainingPoolsTree)
for a target GUID has exactly one child per matching item-link edge of
`all_reward_items` — duplicates preserved and declared-zero weights
included, since `in_rewards` filters only on the linked GUID — each
child keyed by the containing pool's own GUID with the item's declared
weight (1 when absent), and no chance field is populated anywhere. -/
theorem claim_C5_inverse_children_per_edge (idx : AssetIndex) (fuel : Nat)
    (g : Int) (t : RewardPoolItem)
    (h : in_rewards_tree idx fuel g = Except.ok t) :
    t.children.map (fun c => (c.guid, c.weight))
      = (in_rewards idx g).map
          (fun p => (p.1.guid.getD 0, some (p.2.weight.getD 1))) ∧
    noChanceFields t = true := by
  obtain ⟨-, -, hc, hn⟩ := in_rewards_tree_aux_ok_fields fuel g none t h
  exact ⟨hc, hn⟩

theorem claim_C5_witness :
    in_rewards_tree wIdx 2 10
        = Except.ok (RewardPoolItem.mk 10 (some "A") none none none none
            [RewardPoolItem.mk 100 (some "P") none (some 3) none none []]) ∧
    ((RewardPoolItem.mk 10 (some "A") none none none none
        [RewardPoolItem.mk 100 (some "P") none (some 3) none none []]).children.map
          (fun c => (c.guid, c.weight))
        = (in_rewards wIdx 10).map
            (fun p => (p.1.guid.getD 0, some (p.2.weight.getD 1))) ∧
      noChanceFields (RewardPoolItem.mk 10 (some "A") none none none none
        [RewardPoolItem.mk 100 (some "P") none (some 3) none none []]) = true) :=
  ⟨rfl, claim_C5_inverse_children_per_edge wIdx 2 10 _ rfl⟩

mutual

/-- `chanceOk` holds at every node of the subtree it holds at. -/
theorem chanceOk_of_mem : ∀ (t : RewardPoolItem), chanceOk t = true →
    ∀ s ∈ iter_all t, chanceOk s = true
  | .mk g n e w p r cs => by
    intro ht s hs
    rw [iter_all] at hs
    rcases List.mem_cons.1 hs with rfl | hs'
    · exact ht
    · rw [chanceOk, Bool.and_eq_true] at ht
      exact chanceOkList_of_mem cs ht.2 s hs'

theorem chanceOkList_of_mem : ∀ (cs : List RewardPoolItem),
    chanceOkList cs = true → ∀ s ∈ iter_all_list cs, chanceOk s = true
  | [] => by intro _ s hs; cases hs
  | c :: cs => by
    intro h s hs
    rw [chanceOkList, Bool.and_eq_true] at h
    rw [iter_all_list] at hs
    rcases List.mem_append.1 hs with hs' | hs'
    · exact chanceOk_of_mem c h.1 s hs'
    · exact chanceOkList_of_mem cs h.2 s hs'

end

theorem sum_div_mul (l : List ℚ) (d r : ℚ) :
    (l.map (fun x => x / d * r)).sum = l.sum / d * r := by
  induction l with
  | nil => simp
  | cons x xs ih =>
    simp only [List.map_cons, List.sum_cons, ih]
    ring

theorem cast_sum_weights (cs : List RewardPoolItem) :
    ((childrenWeightSum cs : Int) : ℚ)
      = (cs.map (fun c => (c.weight.getD 0 : ℚ))).sum := by
  rw [childrenWeightSum]
  induction cs with
  | nil => simp
  | cons c cs ih => simp [ih]

/-- A node with children that satisfies `chanceOk` has a populated
`chance_from_root`. -/
theorem chanceOk_cfr_of_children {s : RewardPoolItem}
    (h : chanceOk s = true) (hne : s.children ≠ []) :
    ∃ rs, s.chance_from_root = some rs := by
  obtain ⟨g, n, e, w, p, r, cs⟩ := s
  rw [chanceOk, Bool.and_eq_true, List.all_eq_true] at h
  simp only [RewardPoolItem.children_mk] at hne
  cases cs with
  | nil => exact absurd rfl hne
  | cons c cs' =>
    cases r with
    | none =>
      have hc := h.1 c (by simp)
      simp only [childFieldsOk] at hc
      exact absurd hc (by simp)
    | some rs => exact ⟨rs, rfl⟩

/-- At a `chanceOk` node with positive pool weight, the children's
`chance_from_root` sum to the node's own `chance_from_root`. -/
theorem chanceOk_sum_children {s : RewardPoolItem} {r : ℚ}
    (h : chanceOk s = true) (hr : s.chance_from_root = some r)
    (hpos : 0 < childrenWeightSum s.children) :
    sumChildrenCfr s = r := by
  obtain ⟨g, n, e, w, p, r', cs⟩ := s
  simp only [RewardPoolItem.cfr_mk] at hr
  subst hr
  simp only [RewardPoolItem.children_mk] at hpos
  rw [chanceOk, Bool.and_eq_true, List.all_eq_true] at h
  have hmap : cs.map (fun c => c.chance_from_root.getD 0)
      = cs.map (fun c =>
          (c.weight.getD 0 : ℚ) / ((childrenWeightSum cs : Int) : ℚ) * r) := by
    refine List.map_congr_left ?_
    intro c hc
    have hok := h.1 c hc
    simp only [childFieldsOk, Bool.and_eq_true, decide_eq_true_eq] at hok
    rw [hok.2]
    rfl
  rw [sumChildrenCfr]
  simp only [RewardPoolItem.children_mk]
  rw [hmap]
  have : cs.map (fun c =>
      (c.weight.getD 0 : ℚ) / ((childrenWeightSum cs : Int) : ℚ) * r)
      = (cs.map (fun c => (c.weight.getD 0 : ℚ))).map
          (fun x => x / ((childrenWeightSum cs : Int) : ℚ) * r) := by
    rw [List.map_map]; rfl
  rw [this, sum_div_mul, ← cast_sum_weights, div_self (by positivity), one_mul]

/-- C3 (amended): in a tree returned by `reward_tree`, at every node
with positive pool weight the children's `chance_from_root` sum to that
node's own `chance_from_root` — hence to 1 at the root, whose
`chance_from_root` is 1, but not at inner nodes in general (see
`claim_C3_counterexample`). -/
theorem claim_C3_children_cfr_sum (idx : AssetIndex) (fuel : Nat) (g : Int)
    (t : RewardPoolItem) (h : reward_tree idx fuel g = Except.ok t) :
    (∀ s ∈ iter_all t, 0 < childrenWeightSum s.children →
      sumChildrenCfr s = s.chance_from_root.getD 0) ∧
    (0 < childrenWeightSum t.children → sumChildrenCfr t = 1) := by
  obtain ⟨-, -, -, hr, hok⟩ := reward_pool_tree_ok_fields fuel g none none 1 t h
  constructor
  · intro s hs hpos
    have hsok := chanceOk_of_mem t hok s hs
    have hne : s.children ≠ [] := by
      intro hnil
      rw [childrenWeightSum, hnil] at hpos
      simp at hpos
    obtain ⟨rs, hrs⟩ := chanceOk_cfr_of_children hsok hne
    rw [chanceOk_sum_children hsok hrs hpos, hrs]
    rfl
  · intro hpos
    exact chanceOk_sum_children hok hr hpos

/-- Catalog with a two-level pool chain: pool 1 → {pool 2 (weight 1),
item 3 (weight 1)}, pool 2 → {item 4 (weight 1)}. -/
def cDoc3 : List Asset :=
  [ ⟨some 1, none, none, false,
      some [(true, ⟨some 2, some 1⟩), (true, ⟨some 3, some 1⟩)]⟩
  , ⟨some 2, none, none, false, some [(true, ⟨some 4, some 1⟩)]⟩
  , ⟨some 3, none, none, true, none⟩
  , ⟨some 4, none, none, true, none⟩ ]

def cIdx3 : AssetIndex := asset_index cDoc3

/-- Counterexample to C3 as stated: in `reward_tree cIdx3 3 1`, the
inner node for pool 2 has pool weight 1 > 0, yet the sum of
`chance_from_root` over its direct children is 1/2, not 1 (it equals
the node's own `chance_from_root`). -/
theorem claim_C3_counterexample :
    (reward_tree cIdx3 3 1).map
        (fun t => t.children.map
          (fun c => (c.guid, childrenWeightSum c.children, sumChildrenCfr c)))
      = Except.ok [(2, 1, (1/2 : ℚ)), (3, 0, 0)] ∧ ((1 : ℚ)/2) ≠ 1 := by
  constructor
  · norm_num [reward_tree, reward_pool_tree, idxLookup, cIdx3, cDoc3, asset_index,
      indexStep, dictInsert, linkweights, mapME_cons, mapME_nil, Except.map,
      childrenWeightSum, sumChildrenCfr]
  · norm_num

theorem claim_C3_witness :
    (∀ s ∈ iter_all wTree100, 0 < childrenWeightSum s.children →
      sumChildrenCfr s = s.chance_from_root.getD 0) ∧
    (0 < childrenWeightSum wTree100.children → sumChildrenCfr wTree100 = 1) :=
  claim_C3_children_cfr_sum wIdx 2 100 wTree100 reward_tree_wIdx_eq

theorem iter_all_list_eq_flatten :
    ∀ cs : List RewardPoolItem, iter_all_list cs = (cs.map iter_all).flatten
  | [] => rfl
  | c :: cs => by
    rw [iter_all_list, iter_all_list_eq_flatten cs]
    simp

theorem iter_leafs_list_eq_flatten :
    ∀ cs : List RewardPoolItem, iter_leafs_list cs = (cs.map iter_leafs).flatten
  | [] => rfl
  | c :: cs => by
    rw [iter_leafs_list, iter_leafs_list_eq_flatten cs]
    simp

mutual

/-- Leaf enumeration is nonempty-bounded by full enumeration, strictly
when there are children. -/
theorem iter_counts : ∀ t : RewardPoolItem,
    1 ≤ (iter_leafs t).length ∧
    (iter_leafs t).length ≤ (iter_all t).length ∧
    (t.children ≠ [] → (iter_leafs t).length < (iter_all t).length)
  | .mk g n e w p r cs => by
    rw [iter_all, iter_leafs]
    cases cs with
    | nil => simp
    | cons c cs' =>
      have hq := iter_counts_list (c :: cs')
      have h1 := hq.2 (by simp)
      have h2 := hq.1
      rw [if_neg (by simp)]
      simp only [RewardPoolItem.children_mk, List.length_cons]
      refine ⟨h1, by omega, fun _ => by omega⟩

theorem iter_counts_list : ∀ cs : List RewardPoolItem,
    (iter_leafs_list cs).length ≤ (iter_all_list cs).length ∧
    (cs ≠ [] → 1 ≤ (iter_leafs_list cs).length)
  | [] => by simp [iter_leafs_list, iter_all_list]
  | c :: cs => by
    have hp := iter_counts c
    have hq := iter_counts_list cs
    rw [iter_leafs_list, iter_all_list]
    simp only [List.length_append]
    exact ⟨by omega, fun _ => by omega⟩

end

/-- C8: on every tree node, `iter_all` yields at least as many nodes as
`iter_leafs`, with equality exactly when the node has no children;
`iter_all` is the pre-order enumeration (self first, then the children's
subtrees left to right) and `iter_leafs` the left-to-right leaf
enumeration; both are pure functions of the tree, so running either
twice yields identical ordered results. -/
theorem claim_C8_iter_counts_preorder (t : RewardPoolItem) :
    (iter_leafs t).length ≤ (iter_all t).length ∧
    ((iter_all t).length = (iter_leafs t).length ↔ t.children = []) ∧
    iter_all t = t :: (t.children.map iter_all).flatten ∧
    (t.children = [] → iter_leafs t = [t]) ∧
    (t.children ≠ [] →
      iter_leafs t = (t.children.map iter_leafs).flatten) ∧
    iter_all t = iter_all t ∧ iter_leafs t = iter_leafs t := by
  obtain ⟨h1, h2, h3⟩ := iter_counts t
  refine ⟨h2, ⟨?_, ?_⟩, ?_, ?_, ?_, rfl, rfl⟩
  · intro heq
    by_contra hne
    have := h3 hne
    omega
  · intro hnil
    obtain ⟨g, n, e, w, p, r, cs⟩ := t
    simp only [RewardPoolItem.children_mk] at hnil
    subst hnil
    rw [iter_all, iter_leafs]
    simp [iter_all_list]
  · obtain ⟨g, n, e, w, p, r, cs⟩ := t
    rw [iter_all, iter_all_list_eq_flatten]
    rfl
  · intro hnil
    obtain ⟨g, n, e, w, p, r, cs⟩ := t
    simp only [RewardPoolItem.children_mk] at hnil
    subst hnil
    rw [iter_leafs]
    simp
  · intro hne
    obtain ⟨g, n, e, w, p, r, cs⟩ := t
    simp only [RewardPoolItem.children_mk] at hne ⊢
    rw [iter_leafs, iter_leafs_list_eq_flatten]
    simp [List.isEmpty_iff, hne]

theorem claim_C8_witness :
    (iter_leafs wTree100).length ≤ (iter_all wTree100).length ∧
    ((iter_all wTree100).length = (iter_leafs wTree100).length
      ↔ wTree100.children = []) ∧
    iter_all wTree100 = wTree100 :: (wTree100.children.map iter_all).flatten ∧
    (wTree100.children = [] → iter_leafs wTree100 = [wTree100]) ∧
    (wTree100.children ≠ [] →
      iter_leafs wTree100 = (wTree100.children.map iter_leafs).flatten) ∧
    iter_all wTree100 = iter_all wTree100 ∧
    iter_leafs wTree100 = iter_leafs wTree100 :=
  claim_C8_iter_counts_preorder wTree100

theorem getLast?_cons {α : Type} (a : α) (l : List α) :
    (a :: l).getLast? = l.getLast?.getD a := by
  induction l generalizing a with
  | nil => rfl
  | cons b l ih =>
    rw [List.getLast?_cons_cons, ih b]
    cases hl : l.getLast? <;> simp [List.getLast?_cons_cons, ih, hl]

/-- Replacement at key `g` does not change what `find?` sees at another
key. -/
theorem find?_replace_ne {idx : AssetIndex} {g g' : Int} {a : Asset}
    (h : g' ≠ g) :
    (idx.map (fun p => if p.1 == g then (g, a) else p)).find?
        (fun p => p.1 == g')
      = idx.find? (fun p => p.1 == g') := by
  induction idx with
  | nil => rfl
  | cons q qs ih =>
    simp only [List.map_cons, List.find?_cons]
    by_cases hq : q.1 = g
    · rw [if_pos (by simpa using hq)]
      have h1 : ((g, a).1 == g') = false := by
        simp only [beq_eq_false_iff_ne]
        exact fun hh => h hh.symm
      have h2 : (q.1 == g') = false := by
        simp only [beq_eq_false_iff_ne, hq]
        exact fun hh => h hh.symm
      rw [h1, h2]
      exact ih
    · rw [if_neg (by simpa using hq)]
      cases hpg : (q.1 == g')
      · simp only [hpg]
        exact ih
      · simp only [hpg]

/-- Replacement at an existing key `g` makes `find?` at `g` return the
new entry. -/
theorem find?_replace_eq {idx : AssetIndex} {g : Int} {a : Asset}
    (hany : idx.any (fun p => p.1 == g) = true) :
    (idx.map (fun p => if p.1 == g then (g, a) else p)).find?
        (fun p => p.1 == g)
      = some (g, a) := by
  induction idx with
  | nil => cases hany
  | cons q qs ih =>
    simp only [List.map_cons, List.find?_cons]
    by_cases hq : q.1 = g
    · rw [if_pos (by simpa using hq)]
      rw [show ((g, a).1 == g) = true by simp]
    · rw [if_neg (by simpa using hq)]
      rw [show (q.1 == g) = false by simpa using hq]
      refine ih ?_
      rw [List.any_cons] at hany
      simpa [show (q.1 == g) = false by simpa using hq] using hany

/-- Looking a key up after a dict insertion: the inserted value at the
inserted key, the old table elsewhere. -/
theorem idxLookup_dictInsert (idx : AssetIndex) (g : Int) (a : Asset)
    (g' : Int) :
    idxLookup (dictInsert idx g a) g'
      = if g' = g then some a else idxLookup idx g' := by
  rw [dictInsert]
  by_cases hany : idx.any (fun p => p.1 == g) = true
  · rw [if_pos hany]
    by_cases h : g' = g
    · subst h
      rw [idxLookup, find?_replace_eq hany]
      simp
    · rw [idxLookup, find?_replace_ne h, if_neg h]
      rfl
  · rw [if_neg hany]
    rw [idxLookup, List.find?_append]
    by_cases h : g' = g
    · subst h
      have hnone : idx.find? (fun p => p.1 == g') = none := by
        rw [List.find?_eq_none]
        exact List.any_eq_false.1 (Bool.eq_false_iff.mpr hany)
      rw [hnone, if_pos rfl]
      simp [List.find?_cons]
    · rw [if_neg h]
      have hsingle : List.find? (fun p => p.1 == g') [(g, a)] = none := by
        simp only [List.find?_cons]
        rw [show ((g, a).1 == g') = false by
          simp only [beq_eq_false_iff_ne]
          exact fun hh => h hh.symm]
        rfl
      rw [hsingle, idxLookup]
      cases idx.find? (fun p => p.1 == g') <;> rfl

/-- Folding the index scan over a suffix of the document: the last
eligible entry for `g` in the suffix wins, falling back to the table
built so far. -/
theorem idxLookup_foldl (doc : List Asset) (idx : AssetIndex) (g : Int) :
    idxLookup (doc.foldl indexStep idx) g
      = ((doc.filter (fun a => (a.hasItem || a.rewardPool.isSome)
            && (a.guid == some g))).getLast?).or (idxLookup idx g) := by
  induction doc generalizing idx with
  | nil => simp
  | cons a doc ih =>
    rw [List.foldl_cons, ih, List.filter_cons]
    by_cases hpa : ((a.hasItem || a.rewardPool.isSome)
        && (a.guid == some g)) = true
    · rw [if_pos hpa, getLast?_cons]
      rw [Bool.and_eq_true] at hpa
      have hguid : a.guid = some g := by simpa using hpa.2
      have hstep : idxLookup (indexStep idx a) g = some a := by
        rw [indexStep, if_pos hpa.1, hguid]
        rw [idxLookup_dictInsert]
        simp
      rw [hstep]
      cases hlast : (doc.filter (fun a => (a.hasItem || a.rewardPool.isSome)
          && (a.guid == some g))).getLast? <;> rfl
    · rw [if_neg hpa]
      have hstep : idxLookup (indexStep idx a) g = idxLookup idx g := by
        rw [indexStep]
        by_cases he : (a.hasItem || a.rewardPool.isSome) = true
        · rw [if_pos he]
          cases hg : a.guid with
          | none => rfl
          | some g' =>
            rw [idxLookup_dictInsert]
            have hne : g ≠ g' := by
              intro hEq
              subst hEq
              exact hpa (by rw [Bool.and_eq_true, he, hg]; simp)
            rw [if_neg hne]
        · rw [if_neg he]
      rw [hstep]

/-- C9: the built index maps `g` to exactly the last document asset (in
document order) that has an `Item` or `RewardPool` sub-tree and declares
GUID `g`: assets without a GUID or without such a sub-tree are silently
skipped, duplicates are resolved last-wins with no error, and a GUID
declared by no eligible asset is absent. -/
theorem claim_C9_index_last_wins (doc : List Asset) (g : Int) :
    idxLookup (asset_index doc) g
      = (doc.filter (fun a => (a.hasItem || a.rewardPool.isSome)
          && (a.guid == some g))).getLast? := by
  rw [asset_index, idxLookup_foldl]
  cases (doc.filter (fun a => (a.hasItem || a.rewardPool.isSome)
      && (a.guid == some g))).getLast? <;> rfl

/-- C7: memoized-generator semantics of `reward_pools` /
`all_reward_items`.  From a fresh cache the first call materializes the
scan and stores it; any call finding a stored list returns exactly that
list with the cache unchanged (no re-evaluation — the result is the
stored value whatever it is); hence calling either operation twice
returns identical ordered results and the second call changes nothing. -/
theorem claim_C7_cached_generators (idx : AssetIndex) :
    (reward_pools_call idx emptyCache
      = (reward_pools idx, ⟨some (reward_pools idx), none⟩)) ∧
    (∀ (s : AssetsCache) (v : List Asset),
      s.cached_reward_pools = some v → reward_pools_call idx s = (v, s)) ∧
    ((all_reward_items_call idx emptyCache).1 = all_reward_items idx) ∧
    (∀ (s : AssetsCache) (v : List (Asset × Item × Int)),
      s.cached_all_reward_items = some v → all_reward_items_call idx s = (v, s)) ∧
    (reward_pools_call idx (reward_pools_call idx emptyCache).2
      = reward_pools_call idx emptyCache) ∧
    (all_reward_items_call idx (all_reward_items_call idx emptyCache).2
      = all_reward_items_call idx emptyCache) := by
  refine ⟨rfl, ?_, rfl, ?_, rfl, rfl⟩
  · intro s v h
    obtain ⟨c1, c2⟩ := s
    simp only at h
    subst h
    rfl
  · intro s v h
    obtain ⟨c1, c2⟩ := s
    simp only at h
    subst h
    rfl

theorem claim_C7_witness :
    reward_pools_call wIdx ⟨some [], none⟩ = ([], ⟨some [], none⟩) ∧
    all_reward_items_call wIdx ⟨none, some []⟩ = ([], ⟨none, some []⟩) :=
  ⟨(claim_C7_cached_generators wIdx).2.1 ⟨some [], none⟩ [] rfl,
    (claim_C7_cached_generators wIdx).2.2.2.1 ⟨none, some []⟩ [] rfl⟩

/-- A pool whose single item-link sits under `Values/RewardPool` but not
under its `ItemsPool` sub-element: the forward xpath
(`Values/RewardPool//Item`, any depth — `linkweights`) sees it, the
inverse edge scan (`Values/RewardPool/ItemsPool/Item` —
`itemsPoolItems` feeding `all_reward_items`) does not. -/
def pool10 : Asset :=
  ⟨some 1, none, none, false, some [(false, ⟨some 2, some 1⟩)]⟩

def cDoc10 : List Asset := [pool10, ⟨some 2, none, none, true, none⟩]

def cIdx10 : AssetIndex := asset_index cDoc10

/-- C10: the two builders consider different edge sets.  On `cDoc10`,
pool 1's link to GUID 2 is collected by the forward builder
(`linkweights` sees it; `reward_tree 1` has the child 2) but not by the
inverse scan (`itemsPoolItems` is empty, so `in_rewards_tree 2` has no
child for pool 1). -/
theorem claim_C10_forward_inverse_edge_mismatch :
    linkweights pool10 = [(2, 1)] ∧
    itemsPoolItems pool10 = [] ∧
    (reward_tree cIdx10 2 1).map (fun t => t.children.map RewardPoolItem.guid)
      = Except.ok [2] ∧
    (in_rewards_tree cIdx10 2 2).map (fun t => t.children.length)
      = Except.ok 0 := by
  refine ⟨rfl, rfl, ?_, rfl⟩
  norm_num [reward_tree, reward_pool_tree, idxLookup, cIdx10, cDoc10, pool10,
    asset_index, indexStep, dictInsert, linkweights, mapME_cons, mapME_nil,
    Except.map]

/-- Forward reachability in the reward-pool link graph: the GUIDs the
forward builder can recurse into starting from `root`. -/
inductive FwdReach (idx : AssetIndex) (root : Int) : Int → Prop where
  | refl : FwdReach idx root root
  | step {h : Int} {a : Asset} {p : Int × Int} :
      FwdReach idx root h → idxLookup idx h = some a →
      p ∈ linkweights a → FwdReach idx root p.1

/-- Upward reachability in the containment graph: the GUIDs the inverse
builder can recurse into starting from `root`. -/
inductive InvReach (idx : AssetIndex) (root : Int) : Int → Prop where
  | refl : InvReach idx root root
  | step {h : Int} {e : Asset × Item} :
      InvReach idx root h → e ∈ in_rewards idx h →
      InvReach idx root (e.1.guid.getD 0)

/-- With a measure that strictly decreases along every link reachable
from `root`, the forward builder never exhausts fuel above the root's
measure. -/
theorem reward_pool_tree_acyclic_no_fuel (idx : AssetIndex) (root : Int)
    (m : Int → Nat)
    (hm : ∀ (g : Int) (a : Asset), FwdReach idx root g →
      idxLookup idx g = some a → ∀ p ∈ linkweights a, m p.1 < m g) :
    ∀ (fuel : Nat) (g : Int), FwdReach idx root g → m g < fuel →
      ∀ (w : Option Int) (cfp : Option ℚ) (r : ℚ),
      reward_pool_tree idx fuel g w cfp r ≠ Except.error BErr.outOfFuel := by
  intro fuel
  induction fuel with
  | zero => intro g _ hlt; omega
  | succ fuel ih =>
    intro g hreach hlt w cfp r
    rw [reward_pool_tree]
    cases hl : idxLookup idx g with
    | none => simp
    | some a =>
      simp only
      split
      · simp
      · cases hmm : mapME
            (fun p =>
              reward_pool_tree idx fuel p.1 (some p.2)
                (some ((p.2 : ℚ) / (((linkweights a).map Prod.snd).sum : ℚ)))
                (r * (p.2 : ℚ) / (((linkweights a).map Prod.snd).sum : ℚ)))
            (linkweights a) with
        | error e =>
          intro hc
          simp only [Except.map, Except.error.injEq] at hc
          subst hc
          refine mapME_ne_error ?_ hmm
          intro p hp
          exact ih p.1 (FwdReach.step hreach hl hp)
            (by have := hm g a hreach hl p hp; omega) _ _ _
        | ok children => simp [Except.map]

/-- The inverse analogue: a measure strictly decreasing along every
containment edge reachable from `root` bounds the fuel the inverse
builder needs. -/
theorem in_rewards_tree_acyclic_no_fuel (idx : AssetIndex) (root : Int)
    (m : Int → Nat)
    (hm : ∀ (g : Int), InvReach idx root g →
      ∀ e ∈ in_rewards idx g, m (e.1.guid.getD 0) < m g) :
    ∀ (fuel : Nat) (g : Int), InvReach idx root g → m g < fuel →
      ∀ (w : Option Int),
      in_rewards_tree_aux idx fuel g w ≠ Except.error BErr.outOfFuel := by
  intro fuel
  induction fuel with
  | zero => intro g _ hlt; omega
  | succ fuel ih =>
    intro g hreach hlt w
    rw [in_rewards_tree_aux]
    cases hl : idxLookup idx g with
    | none => simp
    | some a =>
      cases hmm : mapME
          (fun p =>
            in_rewards_tree_aux idx fuel (p.1.guid.getD 0)
              (some (p.2.weight.getD 1)))
          (in_rewards idx g) with
      | error e =>
        intro hc
        simp only [Except.map, Except.error.injEq] at hc
        subst hc
        refine mapME_ne_error ?_ hmm
        intro e he
        exact ih (e.1.guid.getD 0) (InvReach.step hreach he)
          (by have := hm g hreach e he; omega) _
      | ok children => simp [Except.map]

/-- A catalog with a reachable cycle: pool 7's only item-link (under
`ItemsPool`, so both builders see it) is pool 7 itself. -/
def loopDoc : List Asset :=
  [⟨some 7, none, none, false, some [(true, ⟨some 7, some 1⟩)]⟩]

def loopIdx : AssetIndex := asset_index loopDoc

/-- On the self-linking pool, every amount of fuel is exhausted: the
forward recursion never terminates. -/
theorem reward_pool_tree_loop :
    ∀ (fuel : Nat) (w : Option Int) (cfp : Option ℚ) (r : ℚ),
      reward_pool_tree loopIdx fuel 7 w cfp r
        = Except.error BErr.outOfFuel := by
  intro fuel
  induction fuel with
  | zero => intro w cfp r; rfl
  | succ fuel ih =>
    intro w cfp r
    have ih' : ∀ (w : Option Int) (cfp : Option ℚ) (r : ℚ),
        reward_pool_tree
          [(7, (⟨some 7, none, none, false,
              some [(true, ⟨some 7, some 1⟩)]⟩ : Asset))]
          fuel 7 w cfp r = Except.error BErr.outOfFuel := ih
    rw [reward_pool_tree]
    norm_num [loopIdx, loopDoc, asset_index, indexStep, dictInsert, idxLookup,
      linkweights, mapME_cons, ih', Except.map]

/-- Likewise for the inverse recursion: pool 7 contains itself. -/
theorem in_rewards_tree_loop :
    ∀ (fuel : Nat) (w : Option Int),
      in_rewards_tree_aux loopIdx fuel 7 w = Except.error BErr.outOfFuel := by
  intro fuel
  induction fuel with
  | zero => intro w; rfl
  | succ fuel ih =>
    intro w
    have ih' : ∀ (w : Option Int),
        in_rewards_tree_aux
          [(7, (⟨some 7, none, none, false,
              some [(true, ⟨some 7, some 1⟩)]⟩ : Asset))]
          fuel 7 w = Except.error BErr.outOfFuel := ih
    rw [in_rewards_tree_aux]
    norm_num [loopIdx, loopDoc, asset_index, indexStep, dictInsert, idxLookup,
      in_rewards, all_reward_items, reward_pools, itemsPoolItems, mapME_cons,
      ih', Except.map, List.filterMap_cons, Function.comp]

/-- C6 (amended): when the link graph reachable from the root is
acyclic — witnessed by a measure strictly decreasing along reachable
edges — each builder terminates: with fuel above the root's measure it
returns its result (a tree or a typed error) without exhausting fuel.
There is no cycle or depth guard: on a reachable cycle that the
recursion actually follows, such as the self-linking pool of `loopIdx`,
every amount of fuel is exhausted (the recursion never terminates).  A
reachable cycle alone does not force divergence, however: a missing-GUID
lookup hit before the cycle still terminates the call with `notFound`
(see `claim_C6_counterexample`). -/
theorem claim_C6_termination :
    (∀ (idx : AssetIndex) (root : Int) (m : Int → Nat),
      (∀ (g : Int) (a : Asset), FwdReach idx root g →
        idxLookup idx g = some a → ∀ p ∈ linkweights a, m p.1 < m g) →
      ∀ fuel : Nat, m root < fuel →
        reward_tree idx fuel root ≠ Except.error BErr.outOfFuel) ∧
    (∀ (idx : AssetIndex) (root : Int) (m : Int → Nat),
      (∀ (g : Int), InvReach idx root g →
        ∀ e ∈ in_rewards idx g, m (e.1.guid.getD 0) < m g) →
      ∀ fuel : Nat, m root < fuel →
        in_rewards_tree idx fuel root ≠ Except.error BErr.outOfFuel) ∧
    (∀ fuel : Nat, reward_tree loopIdx fuel 7 = Except.error BErr.outOfFuel) ∧
    (∀ fuel : Nat,
      in_rewards_tree loopIdx fuel 7 = Except.error BErr.outOfFuel) := by
  refine ⟨?_, ?_, ?_, ?_⟩
  · intro idx root m hm fuel hfuel
    exact reward_pool_tree_acyclic_no_fuel idx root m hm fuel root
      FwdReach.refl hfuel none none 1
  · intro idx root m hm fuel hfuel
    exact in_rewards_tree_acyclic_no_fuel idx root m hm fuel root
      InvReach.refl hfuel none
  · intro fuel
    exact reward_pool_tree_loop fuel none none 1
  · intro fuel
    exact in_rewards_tree_loop fuel none

/-- The pool of `preDoc` links first a missing GUID 2, then itself. -/
def preAsset : Asset :=
  ⟨some 1, none, none, false,
    some [(true, ⟨some 2, some 1⟩), (true, ⟨some 1, some 1⟩)]⟩

def preDoc : List Asset := [preAsset]

def preIdx : AssetIndex := asset_index preDoc

/-- Counterexample to C6 as stated: the reachable link graph of root 1
contains a cycle (pool 1 links itself), yet the forward build
terminates — at fuel 2 it already returns the typed `notFound 2` error
for the dangling first link instead of exhausting fuel. -/
theorem claim_C6_counterexample :
    idxLookup preIdx 1 = some preAsset ∧
    ((1 : Int), (1 : Int)) ∈ linkweights preAsset ∧
    reward_tree preIdx 2 1 = Except.error (BErr.notFound 2) ∧
    reward_tree preIdx 2 1 ≠ Except.error BErr.outOfFuel := by
  have h3 : reward_tree preIdx 2 1 = Except.error (BErr.notFound 2) := by
    norm_num [reward_tree, reward_pool_tree, idxLookup, preIdx, preDoc, preAsset,
      asset_index, indexStep, dictInsert, linkweights, mapME_cons, mapME_nil,
      Except.map]
  refine ⟨rfl, by decide, h3, by rw [h3]; simp⟩

def sDoc : List Asset := [⟨some 5, none, none, true, none⟩]

def sIdx : AssetIndex := asset_index sDoc

theorem claim_C6_witness :
    reward_tree sIdx 1 5 ≠ Except.error BErr.outOfFuel ∧
    in_rewards_tree sIdx 1 5 ≠ Except.error BErr.outOfFuel ∧
    reward_tree loopIdx 3 7 = Except.error BErr.outOfFuel ∧
    in_rewards_tree loopIdx 3 7 = Except.error BErr.outOfFuel :=
  ⟨claim_C6_termination.1 sIdx 5 (fun _ => 0)
      (by
        intro g a _ hl p hp
        by_cases h5 : g = 5
        · subst h5
          rw [show idxLookup sIdx 5
              = some (⟨some 5, none, none, true, none⟩ : Asset) from rfl] at hl
          injection hl with hl
          subst hl
          simp [linkweights] at hp
        · rw [idxLookup, List.find?_eq_none.2 (by
            intro x hx
            rw [show sIdx
                = [(5, (⟨some 5, none, none, true, none⟩ : Asset))] from rfl] at hx
            simp only [List.mem_singleton] at hx
            subst hx
            simp only [beq_iff_eq]
            omega)] at hl
          cases hl)
      1 (by norm_num),
    claim_C6_termination.2.1 sIdx 5 (fun _ => 0)
      (by
        intro g _ e he
        rw [show in_rewards sIdx g = [] from rfl] at he
        cases he)
      1 (by norm_num),
    claim_C6_termination.2.2.1 3,
    claim_C6_termination.2.2.2 3⟩
